import Mathlib

/-!
Verification development for a 1-safe Petri-net analyzer.

The program consists of:
* `utils/marking.py` : class `Marking`, a Python dict from place ids to booleans;
* `utils/petri_net.py` : class `PetriNet` with `places`, `transitions`, `arcs`
  (a dict `transition -> (input place list, output place list)`), `is_enabled`,
  `fire_transition`;
* `explicit_reachability/reachability.py` : BFS over the firing relation;
* `bdd_reachability/symbolic_reachability.py` : symbolic reachability with BDDs
  over one boolean variable per place (current) plus a primed copy (next);
* `ilp_deadlock/deadlock_detector.py` : ILP-candidate / BDD-check loop;
* `optimization/optimizer.py` : branch-and-bound maximization over the
  reachable set.

Embedding conventions:
* A Python dict with boolean values (the `Marking.marking` field) is a
  `Finmap`; Python dict equality (same keys, same values) is exactly `Finmap`
  equality, and `Marking.__init__` normalizes every stored value with
  `bool(...)`, which the `Bool` value type models.
* The BDD manager declares one current variable per place and one primed next
  variable per place (names are the place id and the place id with a primed
  suffix; places are assumed not to collide with primed names).  A reduced
  ordered BDD canonically represents a boolean function of the declared
  variables, and the `==` of the `dd` library is equality of those functions.
  We therefore embed a BDD over the current variables by its set of satisfying
  assignments: a `Finset` of states, where a state is a function from the
  places of the net to `Bool`.  The transition relation, which mentions both
  variable families, is embedded as a `Finset` of pairs of states.  All BDD
  operations used by the program (`&`, `|`, `~`, `exist` over the whole
  current family, `let` renaming next to current or substituting constants,
  comparison with `true`/`false`) are set operations under this semantics and
  are embedded as such, step by step, at their use sites.
* Numbers: token counts and scores are exact integers in Python; we use `Nat`
  and `Int`.  Errors (`raise`) are `Except`; `time.time()` readings are
  passed in as rational parameters.
-/

namespace PetriProof

/-! ### Marking : `utils/marking.py`

`Marking.marking` is a Python dict mapping place ids to booleans.  The class
normalizes values with `bool(...)` at construction and mutation, so the value
type is `Bool`.  `PyDict K` is that dict; Lean equality of `Finmap` is Python
dict equality (same key set, pointwise equal values).
-/

abbrev PyDict (K : Type) := Finmap (fun _ : K => Bool)

variable {K : Type} [DecidableEq K]

/-- `Marking.has_token(place)`: `self.marking.get(place, False)`. -/
def has_token (m : PyDict K) (p : K) : Bool :=
  (m.lookup p).getD false

/-- `Marking.set_token(place, has_token)`: `self.marking[place] = bool(has_token)`. -/
def set_token (m : PyDict K) (p : K) (b : Bool) : PyDict K :=
  m.insert p b

/-- `Marking.to_vector(places)`: `[1 if self.has_token(place) else 0 for place in places]`.
The 0/1 integers are booleans under `bool(...)`, which is how `from_vector`
consumes them, so the vector is modeled as a list of booleans. -/
def to_vector (m : PyDict K) (places : List K) : List Bool :=
  places.map (has_token m)

/-- `Marking.from_vector(vector, places)`: raises `ValueError` when the lengths
differ, otherwise builds the dict `{place: bool(token) for place, token in zip(places, vector)}`.
A Python dict comprehension lets a later duplicate key overwrite an earlier
one, which `Finmap.insert` folded from the left also does. -/
def from_vector (vector : List Bool) (places : List K) : Option (PyDict K) :=
  if vector.length = places.length then
    some ((places.zip vector).foldl (fun d q => d.insert q.1 q.2) ∅)
  else
    none

/-! Dict lemmas (lookups of insert folds). -/

theorem lookup_foldl_insert_const (l : List K) (b : Bool) (m : PyDict K) (p : K) :
    ((l.foldl (fun d q => d.insert q b) m).lookup p) =
      (if p ∈ l then some b else m.lookup p) := by
  induction l generalizing m with
  | nil => simp
  | cons q l ih =>
      simp only [List.foldl_cons, ih (m.insert q b), List.mem_cons]
      by_cases hql : p ∈ l
      · simp [hql]
      · by_cases hpq : p = q
        · subst hpq; simp [hql]
        · simp [hql, hpq, Finmap.lookup_insert_of_ne _ hpq]

theorem lookup_foldl_insert_fn (l : List K) (f : K → Bool) (m : PyDict K) (p : K) :
    (((l.map (fun q => (q, f q))).foldl (fun d q => d.insert q.1 q.2) m).lookup p) =
      (if p ∈ l then some (f p) else m.lookup p) := by
  induction l generalizing m with
  | nil => simp
  | cons q l ih =>
      simp only [List.map_cons, List.foldl_cons, ih (m.insert q (f q)), List.mem_cons]
      by_cases hql : p ∈ l
      · simp [hql]
      · by_cases hpq : p = q
        · subst hpq; simp [hql]
        · simp [hql, hpq, Finmap.lookup_insert_of_ne _ hpq]

theorem lookup_of_mem (m : PyDict K) (p : K) (h : p ∈ m) :
    m.lookup p = some (has_token m p) := by
  rcases hs : m.lookup p with _ | b
  · exact absurd (Finmap.lookup_eq_none.mp hs) (by simpa using h)
  · simp [has_token, hs]

theorem lookup_of_not_mem (m : PyDict K) (p : K) (h : p ∉ m) :
    m.lookup p = none :=
  Finmap.lookup_eq_none.mpr h

/-! ### Claim C6 : `Marking.__eq__`

`Marking.__eq__` is `self.marking == other.marking`, i.e. Python dict
equality.  A dict that stores a place with value `False` is NOT equal to a
dict that omits that place, even though `has_token` reads both as `False`.
The claim (equality iff agreement on every place, absent meaning 0) therefore
fails; the counterexample is `Marking({"p": 0})` versus `Marking({})`.
-/

/-- The marking `Marking({"p": 0})`: its dict stores the entry `"p" ↦ False`. -/
def mC6a : PyDict String := Finmap.insert "p" false ∅

/-- The marking `Marking({})`: the empty dict. -/
def mC6b : PyDict String := ∅

/-- Claim C6, counterexample: `Marking({"p": 0})` and `Marking({})` agree on
every place under `has_token` (an absent place reads as 0), yet
`Marking.__eq__` (dict equality) distinguishes them. -/
theorem c6_counterexample :
    (∀ q : String, has_token mC6a q = has_token mC6b q) ∧ mC6a ≠ mC6b := by
  constructor
  · intro q
    by_cases hq : q = "p"
    · subst hq; simp [mC6a, mC6b, has_token]
    · simp [mC6a, mC6b, has_token, Finmap.lookup_insert_of_ne _ hq]
  · intro h
    have := congrArg (Finmap.lookup "p") h
    simp [mC6a, mC6b] at this

/-- Claim C6 (corrected): two `Marking` objects are equal under
`Marking.__eq__` iff they agree on every place (`has_token`) AND store
exactly the same set of places; a place stored explicitly as 0 is not
interchangeable with an omitted place. -/
theorem c6_eq_iff (m₁ m₂ : PyDict K) :
    m₁ = m₂ ↔ ((∀ p, has_token m₁ p = has_token m₂ p) ∧ m₁.keys = m₂.keys) := by
  constructor
  · rintro rfl; exact ⟨fun _ => rfl, rfl⟩
  · rintro ⟨hv, hk⟩
    apply Finmap.ext_lookup
    intro x
    by_cases hx : x ∈ m₁
    · have hx2 : x ∈ m₂ := by
        rw [← Finmap.mem_keys, ← hk, Finmap.mem_keys]; exact hx
      rw [lookup_of_mem m₁ x hx, lookup_of_mem m₂ x hx2, hv x]
    · have hx2 : x ∉ m₂ := by
        rw [← Finmap.mem_keys, ← hk, Finmap.mem_keys]; exact hx
      rw [lookup_of_not_mem m₁ x hx, lookup_of_not_mem m₂ x hx2]

/-! ### Claim C7 : `from_vector` / `to_vector` round trip

`to_vector` reads every place of `order` through `has_token` (absent places
read 0) while `from_vector` stores an entry for every place of `order`.  The
round trip therefore reproduces `M` (under dict equality) exactly when the
key set stored in `M` is the set of places of `order`; a marking storing a
place outside `order`, or omitting one inside it, is a counterexample.
-/

/-- The marking `Marking({"q": 1})`. -/
def mC7 : PyDict String := Finmap.insert "q" true ∅

/-- Claim C7, counterexample: for `M = Marking({"q": 1})` and
`order = ["p"]`, `from_vector(to_vector(M, order), order)` is
`Marking({"p": 0}) ≠ M`. -/
theorem c7_counterexample :
    from_vector (to_vector mC7 ["p"]) ["p"] ≠ some mC7 := by
  decide

/-- Claim C7 (corrected): for every marking `M` and place list `order` such
that the places stored in `M` are exactly the places of `order`,
`from_vector(to_vector(M, order), order)` equals `M` under `Marking.__eq__`
(dict equality). -/
theorem c7_roundtrip (m : PyDict K) (order : List K) (h : m.keys = order.toFinset) :
    from_vector (to_vector m order) order = some m := by
  have hzip : (order.zip (to_vector m order)) =
      order.map (fun p => (p, has_token m p)) := by
    have := List.zip_map' (id : K → K) (has_token m) order
    simpa [to_vector] using this
  rw [from_vector, if_pos (by simp [to_vector])]
  congr 1
  apply Finmap.ext_lookup
  intro x
  rw [hzip, lookup_foldl_insert_fn]
  by_cases hx : x ∈ order
  · rw [if_pos hx]
    have hxm : x ∈ m := by
      rw [← Finmap.mem_keys, h, List.mem_toFinset]; exact hx
    rw [lookup_of_mem m x hxm]
  · rw [if_neg hx]
    have hxm : x ∉ m := by
      rw [← Finmap.mem_keys, h, List.mem_toFinset]; exact hx
    rw [lookup_of_not_mem m x hxm, Finmap.lookup_empty]

/-- Witness for C7 (corrected) at `M = Marking({"p": 1})`, `order = ["p"]`. -/
theorem c7_roundtrip_witness :
    (Finmap.insert "p" true ∅ : PyDict String).keys = (["p"] : List String).toFinset ∧
      from_vector (to_vector (Finmap.insert "p" true ∅) ["p"]) ["p"] =
        some (Finmap.insert "p" true ∅) :=
  ⟨by decide, c7_roundtrip _ _ (by decide)⟩

/-! ### PetriNet : `utils/petri_net.py`

`PetriNet` keeps a set of place ids, a set of transition ids, and the arcs
dict `self.arcs[t] = (input place list, output place list)` (entries of
`self.arcs` exist exactly for the transitions; `arcsIn`/`arcsOut` model the
two lists, empty for ids without an entry).  `initial_marking` is a
`Marking`.
-/

structure PetriNet (K : Type) where
  places : Finset K
  transitions : Finset K
  arcsIn : K → List K
  arcsOut : K → List K

/-- Wellformedness maintained by `add_arc`: every arc connects a place and a
transition, so every entry of `self.arcs[t]` is a place of the net. -/
def Wf (N : PetriNet K) : Prop :=
  ∀ t ∈ N.transitions, (∀ p ∈ N.arcsIn t, p ∈ N.places) ∧ (∀ p ∈ N.arcsOut t, p ∈ N.places)

/-- `PetriNet.is_enabled(transition, marking)`: raises `ValueError` when the
transition does not exist; otherwise true iff every input place has a token. -/
def is_enabled (N : PetriNet K) (t : K) (m : PyDict K) : Except String Bool :=
  if t ∈ N.transitions then .ok ((N.arcsIn t).all (has_token m))
  else .error "Transition does not exist"

/-- The marking produced by `PetriNet.fire_transition` on the success path:
deep copy the argument, then set every input place to `False`, then set every
output place to `True` (so an overlapping place ends up `True`). -/
def fireDict (N : PetriNet K) (t : K) (m : PyDict K) : PyDict K :=
  (N.arcsOut t).foldl (fun d q => set_token d q true)
    ((N.arcsIn t).foldl (fun d q => set_token d q false) m)

/-- `PetriNet.fire_transition(transition, marking)`: `ValueError` when the
transition does not exist or is not enabled; otherwise the fresh marking
`fireDict` (the argument is deep copied before mutation, so the embedding as
a pure function is faithful and the argument marking is never changed). -/
def fire_transition (N : PetriNet K) (t : K) (m : PyDict K) : Except String (PyDict K) :=
  if t ∈ N.transitions then
    if (N.arcsIn t).all (has_token m) then .ok (fireDict N t m)
    else .error "Transition is not enabled in the given marking"
  else .error "Transition does not exist"

theorem lookup_fireDict (N : PetriNet K) (t : K) (m : PyDict K) (p : K) :
    (fireDict N t m).lookup p =
      (if p ∈ N.arcsOut t then some true
       else if p ∈ N.arcsIn t then some false
       else m.lookup p) := by
  simp only [fireDict, set_token]
  rw [lookup_foldl_insert_const]
  by_cases hout : p ∈ N.arcsOut t
  · simp [hout]
  · simp only [if_neg hout]
    exact lookup_foldl_insert_const _ _ _ _

/-- Claim C8: for a transition `t` of the net and any marking `M`,
`fire_transition(t, M)` raises exactly when `t` is not enabled at `M`, and on
success returns the marking obtained by first clearing every input place and
then setting every output place of `t` (the argument marking itself is left
unchanged: the code deep copies it, and the embedding is a pure function). -/
theorem c8_fire_transition (N : PetriNet K) (t : K) (m : PyDict K)
    (ht : t ∈ N.transitions) :
    ((∃ e, fire_transition N t m = .error e) ↔ is_enabled N t m = .ok false) ∧
    (is_enabled N t m = .ok true →
      fire_transition N t m = .ok (fireDict N t m) ∧
      ∀ p, (fireDict N t m).lookup p =
        (if p ∈ N.arcsOut t then some true
         else if p ∈ N.arcsIn t then some false
         else m.lookup p)) := by
  constructor
  · rw [fire_transition, is_enabled, if_pos ht, if_pos ht]
    rcases h : (N.arcsIn t).all (has_token m) with _ | _
    · simp
    · simp
  · intro hen
    rw [is_enabled, if_pos ht] at hen
    have hall : (N.arcsIn t).all (has_token m) = true := by
      simpa using hen
    refine ⟨?_, fun p => lookup_fireDict N t m p⟩
    rw [fire_transition, if_pos ht, if_pos hall]

/-- Net used in concrete witnesses: places `p1 = 0`, `p2 = 1`, transition
`t1 = 2` with `p1 → t1 → p2` (the linear chain prefix from the test suite;
place and transition ids are numbered so that decidability checks evaluate). -/
def netW : PetriNet (Fin 3) where
  places := {0, 1}
  transitions := {2}
  arcsIn := fun t => if t = 2 then [0] else []
  arcsOut := fun t => if t = 2 then [1] else []

/-- Initial marking `Marking({p1:1, p2:0})` of the chain witness net. -/
def m0W : PyDict (Fin 3) := Finmap.insert 0 true (Finmap.insert 1 false ∅)

/-- Witness for C8 at the chain net, `t = t1`, `M = Marking({p1:1, p2:0})`. -/
theorem c8_fire_transition_witness :
    (2 : Fin 3) ∈ netW.transitions ∧
    (((∃ e, fire_transition netW 2 m0W = .error e) ↔
        is_enabled netW 2 m0W = .ok false) ∧
      (is_enabled netW 2 m0W = .ok true →
        fire_transition netW 2 m0W = .ok (fireDict netW 2 m0W) ∧
        ∀ p, (fireDict netW 2 m0W).lookup p =
          (if p ∈ netW.arcsOut 2 then some true
           else if p ∈ netW.arcsIn 2 then some false
           else m0W.lookup p))) :=
  ⟨by decide, c8_fire_transition netW 2 _ (by decide)⟩

/-! ### Symbolic reachability : `bdd_reachability/symbolic_reachability.py`

`initialize_bdd` declares, in sorted place order, a current BDD variable per
place and a primed next variable per place, and `_build_transition_maps`
copies `net.arcs` into `trans_in`/`trans_out` (for a `utils.PetriNet` the
first, dict-shaped branch applies verbatim).  A BDD over the current family
is embedded by its satisfying set of states (`Finset (St N)`), a state being
a function from the places of the net to `Bool`; declaration order does not
affect the boolean function a BDD denotes.  The transition relation, over
both families, is a `Finset` of state pairs.
-/

abbrev Pl (N : PetriNet K) : Type := ↥N.places

abbrev St (N : PetriNet K) : Type := Pl N → Bool

/-- Reading a state at an arbitrary place id: the value of the current
variable named by the id, or `False` when the id is not a declared place
variable (the embedded code paths only read declared places; `assign.get(p, False)`
style reads also default to `False`). -/
def sExt (N : PetriNet K) (s : St N) (k : K) : Bool :=
  if h : k ∈ N.places then s ⟨k, h⟩ else false

/-- `enabled` in `_build_transition_relation`: the conjunction of the current
variables of the input places of `t`; a state satisfies it iff all those
places are true. -/
def enabledSt (N : PetriNet K) (t : K) (s : St N) : Bool :=
  (N.arcsIn t).all (sExt N s)

/-- `next_cons` in `_build_transition_relation`, read at a pair of states:
for each place `p`, the produced case forces the next variable true, the
consumed (and not produced) case forces it false, and the frame case forces
it equal to the current variable. -/
def updOk (N : PetriNet K) (t : K) (s s₂ : St N) : Prop :=
  ∀ p : Pl N,
    s₂ p = (if p.1 ∈ N.arcsOut t then true
            else if p.1 ∈ N.arcsIn t then false
            else s p)

instance (N : PetriNet K) (t : K) (s s₂ : St N) : Decidable (updOk N t s s₂) :=
  inferInstanceAs (Decidable (∀ p : Pl N,
    s₂ p = (if p.1 ∈ N.arcsOut t then true
            else if p.1 ∈ N.arcsIn t then false
            else s p)))

instance (N : PetriNet K) : Decidable (Wf N) :=
  inferInstanceAs (Decidable (∀ t ∈ N.transitions,
    (∀ p ∈ N.arcsIn t, p ∈ N.places) ∧ (∀ p ∈ N.arcsOut t, p ∈ N.places)))

/-- The transition relation `T = OR over transitions of (enabled AND next_cons)`,
embedded as the set of state pairs satisfying it. -/
def Trel (N : PetriNet K) : Finset (St N × St N) :=
  Finset.univ.filter (fun q => ∃ t ∈ N.transitions, enabledSt N t q.1 = true ∧ updOk N t q.1 q.2)

/-- The successor state of firing `t` at `s` (the state-level reading of the
success path of `fire_transition`: clear inputs, then set outputs). -/
def fireSt (N : PetriNet K) (t : K) (s : St N) : St N :=
  fun p => if p.1 ∈ N.arcsOut t then true
           else if p.1 ∈ N.arcsIn t then false
           else s p

theorem updOk_iff_fireSt (N : PetriNet K) (t : K) (s s₂ : St N) :
    updOk N t s s₂ ↔ s₂ = fireSt N t s := by
  constructor
  · intro h; funext p; exact h p
  · rintro rfl p; rfl

/-- `encode_marking(marking)`: the conjunction, over the sorted places, of
the current variable or its negation as dictated by `has_token`.  Its unique
satisfying state is `encSt`. -/
def encSt (N : PetriNet K) (m : PyDict K) : St N :=
  fun p => has_token m p.1

/-- `post(R)`: `R & T`, existential quantification over the whole current
variable family, then renaming every next variable to its current
counterpart; under the satisfying-set semantics this is exactly the set of
states reachable in one `T` step from a state of `R`. -/
def postImg (N : PetriNet K) (R : Finset (St N)) : Finset (St N) :=
  Finset.univ.filter (fun s₂ => ∃ s ∈ R, (s, s₂) ∈ Trel N)

/-- The fixpoint loop of `compute_symbolic_reachability`:
`R <- R | post(R)` until `R` is unchanged (BDD identity is equality of the
denoted boolean functions, i.e. of satisfying sets).  The loop is embedded
with an explicit iteration budget; `Fintype.card (St N)` iterations provably
reach the fixpoint because the set grows strictly until it is stable. -/
def reachAux (N : PetriNet K) : Nat → Finset (St N) → Finset (St N)
  | 0, R => R
  | n + 1, R => if R ∪ postImg N R = R then R else reachAux N n (R ∪ postImg N R)

/-- `compute_symbolic_reachability(initial_marking)`: iterate from
`R0 = encode_marking(initial_marking)`. -/
def compute_symbolic_reachability (N : PetriNet K) (m₀ : PyDict K) : Finset (St N) :=
  reachAux N (Fintype.card (St N)) {encSt N m₀}

theorem reachAux_mono (N : PetriNet K) :
    ∀ (n : Nat) (R : Finset (St N)), R ⊆ reachAux N n R := by
  intro n
  induction n with
  | zero => intro R; exact subset_rfl
  | succ n ih =>
      intro R
      rw [reachAux]
      by_cases h : R ∪ postImg N R = R
      · rw [if_pos h]
      · rw [if_neg h]
        exact Finset.subset_union_left.trans (ih (R ∪ postImg N R))

theorem reachAux_closed (N : PetriNet K) :
    ∀ (n : Nat) (R : Finset (St N)), Fintype.card (St N) ≤ n + R.card →
      postImg N (reachAux N n R) ⊆ reachAux N n R := by
  intro n
  induction n with
  | zero =>
      intro R hcard
      have hR : R = Finset.univ := by
        apply Finset.eq_univ_of_card
        exact le_antisymm (Finset.card_le_univ R) (by simpa using hcard)
      rw [reachAux, hR]
      intro x _
      exact Finset.mem_univ x
  | succ n ih =>
      intro R hcard
      rw [reachAux]
      by_cases h : R ∪ postImg N R = R
      · rw [if_pos h]
        calc postImg N R ⊆ R ∪ postImg N R := Finset.subset_union_right
          _ = R := h
      · rw [if_neg h]
        apply ih
        have hss : R ⊂ R ∪ postImg N R :=
          Finset.ssubset_iff_subset_ne.mpr ⟨Finset.subset_union_left, fun he => h he.symm⟩
        have hlt : R.card < (R ∪ postImg N R).card := Finset.card_lt_card hss
        omega

/-- Claim C5: the reachable set computed by
`compute_symbolic_reachability(M0)` contains the encoding of `M0`, and is
closed under firing: if the encoding of a marking is in `R` and a transition
`t` of the net is enabled there, the encoding of the fired marking is in `R`
as well. -/
theorem c5_initial_and_closed (N : PetriNet K) (m₀ : PyDict K) :
    encSt N m₀ ∈ compute_symbolic_reachability N m₀ ∧
    ∀ s ∈ compute_symbolic_reachability N m₀, ∀ t ∈ N.transitions,
      enabledSt N t s = true → fireSt N t s ∈ compute_symbolic_reachability N m₀ := by
  constructor
  · exact reachAux_mono N _ _ (Finset.mem_singleton_self _)
  · intro s hs t ht hen
    have hpost : fireSt N t s ∈ postImg N (compute_symbolic_reachability N m₀) := by
      rw [postImg, Finset.mem_filter]
      refine ⟨Finset.mem_univ _, s, hs, ?_⟩
      rw [Trel, Finset.mem_filter]
      exact ⟨Finset.mem_univ _, t, ht, hen, (updOk_iff_fireSt N t s _).mpr rfl⟩
    apply reachAux_closed N (Fintype.card (St N)) {encSt N m₀} (Nat.le_add_right _ _)
    exact hpost

/-- Witness for C5 at the chain net: firing `t1` from the initial encoding
stays inside the computed reachable set. -/
theorem c5_witness :
    fireSt netW 2 (encSt netW m0W) ∈ compute_symbolic_reachability netW m0W :=
  (c5_initial_and_closed netW m0W).2 (encSt netW m0W) (by decide) 2 (by decide) (by decide)

theorem list_all_congr {α : Type} {l : List α} {f g : α → Bool}
    (h : ∀ x ∈ l, f x = g x) : l.all f = l.all g := by
  induction l with
  | nil => rfl
  | cons a l ih =>
      simp only [List.all_cons]
      rw [h a (List.mem_cons_self a l), ih (fun x hx => h x (List.mem_cons_of_mem a hx))]

theorem sExt_encSt (N : PetriNet K) (m : PyDict K) (p : K) (h : p ∈ N.places) :
    sExt N (encSt N m) p = has_token m p := by
  simp [sExt, encSt, h]

theorem enabledSt_encSt (N : PetriNet K) (t : K) (m : PyDict K)
    (hpre : ∀ p ∈ N.arcsIn t, p ∈ N.places) :
    enabledSt N t (encSt N m) = (N.arcsIn t).all (has_token m) :=
  list_all_congr (fun p hp => sExt_encSt N m p (hpre p hp))

/-- Claim C2: for markings `M`, `M2` of the net (dicts whose key set is the
place set), the encoded pair satisfies the transition relation built by
`_build_transition_relation` iff some transition of the net is enabled at `M`
and fires from `M` exactly to `M2`. -/
theorem c2_transition_relation (N : PetriNet K) (hwf : Wf N) (m m₂ : PyDict K)
    (hm : m.keys = N.places) (hm₂ : m₂.keys = N.places) :
    (encSt N m, encSt N m₂) ∈ Trel N ↔
      ∃ t ∈ N.transitions, is_enabled N t m = .ok true ∧ fire_transition N t m = .ok m₂ := by
  have hmem : ∀ p, p ∈ m ↔ p ∈ N.places := by
    intro p; rw [← Finmap.mem_keys, hm]
  have hmem₂ : ∀ p, p ∈ m₂ ↔ p ∈ N.places := by
    intro p; rw [← Finmap.mem_keys, hm₂]
  rw [Trel, Finset.mem_filter]
  constructor
  · rintro ⟨-, t, ht, hen, hupd⟩
    refine ⟨t, ht, ?_, ?_⟩
    · rw [is_enabled, if_pos ht, ← enabledSt_encSt N t m (hwf t ht).1, hen]
    · have hall : (N.arcsIn t).all (has_token m) = true := by
        rw [← enabledSt_encSt N t m (hwf t ht).1, hen]
      rw [fire_transition, if_pos ht, if_pos hall]
      congr 1
      apply Finmap.ext_lookup
      intro x
      rw [lookup_fireDict]
      by_cases hx : x ∈ N.places
      · have := hupd ⟨x, hx⟩
        simp only [encSt] at this
        rw [lookup_of_mem m₂ x ((hmem₂ x).mpr hx)]
        by_cases hout : x ∈ N.arcsOut t
        · rw [if_pos hout]; rw [if_pos hout] at this; rw [this]
        · rw [if_neg hout]; rw [if_neg hout] at this
          by_cases hin : x ∈ N.arcsIn t
          · rw [if_pos hin]; rw [if_pos hin] at this; rw [this]
          · rw [if_neg hin]; rw [if_neg hin] at this
            rw [lookup_of_mem m x ((hmem x).mpr hx), this]
      · have hout : x ∉ N.arcsOut t := fun hc => hx ((hwf t ht).2 x hc)
        have hin : x ∉ N.arcsIn t := fun hc => hx ((hwf t ht).1 x hc)
        rw [if_neg hout, if_neg hin,
          lookup_of_not_mem m₂ x (fun hc => hx ((hmem₂ x).mp hc)),
          lookup_of_not_mem m x (fun hc => hx ((hmem x).mp hc))]
  · rintro ⟨t, ht, hen, hfire⟩
    rw [is_enabled, if_pos ht] at hen
    have hall : (N.arcsIn t).all (has_token m) = true := by simpa using hen
    rw [fire_transition, if_pos ht, if_pos hall] at hfire
    have hm2eq : fireDict N t m = m₂ := by
      injection hfire
    refine ⟨Finset.mem_univ _, t, ht, ?_, ?_⟩
    · rw [enabledSt_encSt N t m (hwf t ht).1, hall]
    · intro p
      show has_token m₂ p.1 =
        (if p.1 ∈ N.arcsOut t then true
         else if p.1 ∈ N.arcsIn t then false
         else has_token m p.1)
      have hx : has_token m₂ p.1 = has_token (fireDict N t m) p.1 := by rw [hm2eq]
      rw [hx, has_token, lookup_fireDict]
      by_cases hout : p.1 ∈ N.arcsOut t
      · simp [hout]
      · by_cases hin : p.1 ∈ N.arcsIn t
        · simp [hout, hin]
        · simp only [if_neg hout, if_neg hin]
          rw [lookup_of_mem m p.1 ((hmem p.1).mpr p.2)]
          rfl

/-- The fired marking `Marking({p1:0, p2:1})` of the chain witness net. -/
def m1W : PyDict (Fin 3) := Finmap.insert 1 true (Finmap.insert 0 false ∅)

/-- Witness for C2 at the chain net with `M = Marking({p1:1,p2:0})` and
`M2 = Marking({p1:0,p2:1})`. -/
theorem c2_transition_relation_witness :
    Wf netW ∧ m0W.keys = netW.places ∧ m1W.keys = netW.places ∧
    ((encSt netW m0W, encSt netW m1W) ∈ Trel netW ↔
      ∃ t ∈ netW.transitions,
        is_enabled netW t m0W = Except.ok true ∧ fire_transition netW t m0W = Except.ok m1W) :=
  ⟨by decide, by decide, by decide,
    c2_transition_relation netW (by decide) m0W m1W (by decide) (by decide)⟩

/-! ### Extraction of markings : `extract_markings` / `_extract_markings_from_bdd`

`extract_markings` enumerates `bdd.pick_iter(reachable_bdd)` without a
`care_vars` argument.  The `dd` library then enumerates assignments over the
SUPPORT of the BDD only (`pick_iter` documentation: when `care_vars` is
`None` the support of `u` is used); a variable the function does not depend
on is absent from every yielded assignment.  The extraction loop reads each
place with `assign.get(p, False)`, so a support-free place is always reported
as 0.  We embed the support, the support projection of a satisfying state
(its default-false completion off the support), and the resulting marking
set.  When the net has no places the code returns `{Marking({})}` for a
non-false BDD and `{}` otherwise.
-/

/-- The state with the value of place `p` flipped. -/
def flipAt (N : PetriNet K) (s : St N) (p : Pl N) : St N :=
  Function.update s p (!(s p))

/-- A BDD (as a satisfying set) depends on the variable of place `p` iff
flipping `p` changes membership for some state. -/
def dependsOn (N : PetriNet K) (R : Finset (St N)) (p : Pl N) : Prop :=
  ∃ s : St N, ¬((s ∈ R) ↔ flipAt N s p ∈ R)

instance (N : PetriNet K) (R : Finset (St N)) (p : Pl N) : Decidable (dependsOn N R p) :=
  inferInstanceAs (Decidable (∃ s : St N, ¬((s ∈ R) ↔ flipAt N s p ∈ R)))

/-- The support of a BDD over the current variables. -/
def supportR (N : PetriNet K) (R : Finset (St N)) : Finset (Pl N) :=
  Finset.univ.filter (fun p => dependsOn N R p)

/-- The assignment yielded by `pick_iter` for a satisfying state, completed
with `assign.get(p, False)`: the value on the support, `False` elsewhere. -/
def pickProj (N : PetriNet K) (R : Finset (St N)) (s : St N) : St N :=
  fun p => if p ∈ supportR N R then s p else false

/-- The states described by the assignments `pick_iter` yields for `R`. -/
def extractStates (N : PetriNet K) (R : Finset (St N)) : Finset (St N) :=
  R.image (pickProj N R)

section SortedPlaces

variable [LinearOrder K]

/-- Ascending enumeration of a finite set by repeated minimum extraction,
with an explicit fuel (the embedding of the builtin `sorted` on a set; a
selection sort that the kernel can evaluate). -/
def sortFinsetAux : Nat → Finset K → List K
  | 0, _ => []
  | n + 1, s =>
      if h : s.Nonempty then s.min' h :: sortFinsetAux n (s.erase (s.min' h)) else []

/-- `sorted(s)` for a finite set `s`. -/
def sortFinset (s : Finset K) : List K :=
  sortFinsetAux s.card s

theorem mem_sortFinsetAux :
    ∀ (n : Nat) (s : Finset K), s.card ≤ n → ∀ p, (p ∈ sortFinsetAux n s ↔ p ∈ s) := by
  intro n
  induction n with
  | zero =>
      intro s hs p
      have : s = ∅ := Finset.card_eq_zero.mp (Nat.le_zero.mp hs)
      subst this
      simp [sortFinsetAux]
  | succ n ih =>
      intro s hs p
      rw [sortFinsetAux]
      by_cases h : s.Nonempty
      · rw [dif_pos h]
        have hcard : (s.erase (s.min' h)).card ≤ n := by
          rw [Finset.card_erase_of_mem (s.min'_mem h)]
          omega
        rw [List.mem_cons, ih (s.erase (s.min' h)) hcard p, Finset.mem_erase]
        constructor
        · rintro (rfl | ⟨-, hp⟩)
          · exact s.min'_mem h
          · exact hp
        · intro hp
          by_cases hpm : p = s.min' h
          · exact Or.inl hpm
          · exact Or.inr ⟨hpm, hp⟩
      · rw [dif_neg h]
        rw [Finset.not_nonempty_iff_eq_empty] at h
        subst h
        simp

theorem nodup_sortFinsetAux :
    ∀ (n : Nat) (s : Finset K), s.card ≤ n → (sortFinsetAux n s).Nodup := by
  intro n
  induction n with
  | zero => intro s _; exact List.nodup_nil
  | succ n ih =>
      intro s hs
      rw [sortFinsetAux]
      by_cases h : s.Nonempty
      · rw [dif_pos h]
        have hcard : (s.erase (s.min' h)).card ≤ n := by
          rw [Finset.card_erase_of_mem (s.min'_mem h)]
          omega
        refine List.Nodup.cons ?_ (ih _ hcard)
        intro hmem
        have := (mem_sortFinsetAux n _ hcard _).mp hmem
        exact (Finset.mem_erase.mp this).1 rfl
      · rw [dif_neg h]; exact List.nodup_nil

theorem mem_sortFinset (s : Finset K) (p : K) : p ∈ sortFinset s ↔ p ∈ s :=
  mem_sortFinsetAux s.card s le_rfl p

theorem nodup_sortFinset (s : Finset K) : (sortFinset s).Nodup :=
  nodup_sortFinsetAux s.card s le_rfl

/-- `sorted(net.places)`. -/
def placesSorted (N : PetriNet K) : List K :=
  sortFinset N.places

/-- The `Marking` object built by the extraction loop for one assignment:
`m[p] = 1 if assign.get(p, False) else 0` for every place `p`. -/
def marking_of_state (N : PetriNet K) (s : St N) : PyDict K :=
  (placesSorted N).foldl (fun d p => d.insert p (sExt N s p)) ∅

/-- `extract_markings(reachable_bdd)`: the set of `Marking` objects read off
the `pick_iter` assignments (with the empty-place special case of
`_extract_markings_from_bdd`). -/
def extract_markings (N : PetriNet K) (R : Finset (St N)) : Finset (PyDict K) :=
  if N.places = ∅ then
    (if R ≠ ∅ then ({∅} : Finset (PyDict K)) else ∅)
  else (extractStates N R).image (marking_of_state N)

end SortedPlaces

/-! ### Explicit reachability : `explicit_reachability/reachability.py`

`compute_reachability` is a BFS: the queue is seeded with the initial
marking, and for every dequeued marking each enabled transition (as filtered
by `get_enabled_transitions`) is fired with `fire_transition` (whose success
path is `fireDict`) and unseen successors are enqueued.  The returned set of
`Marking` objects is exactly the firing-relation closure of the initial
marking, embedded as an inductive reachability predicate. -/

inductive ReachBFS (N : PetriNet K) (m₀ : PyDict K) : PyDict K → Prop
  | init : ReachBFS N m₀ m₀
  | step {m : PyDict K} {t : K} : ReachBFS N m₀ m → t ∈ N.transitions →
      (N.arcsIn t).all (has_token m) = true → ReachBFS N m₀ (fireDict N t m)

/-! ### Claim C1 : symbolic versus explicit reachability

The claim fails on the code.  Failing input: the 1-safe net with a single
place `p1` carrying the initial token and a single transition `t1` with one
arc `p1 -> t1`.  The reachable markings are `{p1:1}` (initial) and `{p1:0}`
(after firing `t1`), so the symbolic fixpoint is the constant-true BDD; its
support is empty, `pick_iter` yields the single empty assignment, and
`extract_markings` returns only `{p1:0}` while BFS returns both markings.
The module docstring promises to match explicit reachability and the test
`test_bdd_matches_explicit_markings` asserts set equality, so this is a code
bug in `extract_markings` (a `care_vars=all places` argument is missing).
-/

/-- The failing net: one place `p1 = 0` (marked), one transition `t1 = 1`,
one arc `p1 -> t1`. -/
def netC1 : PetriNet (Fin 2) where
  places := {0}
  transitions := {1}
  arcsIn := fun t => if t = 1 then [0] else []
  arcsOut := fun _ => []

/-- The initial marking `Marking({p1: 1})` of the failing net. -/
def mC1 : PyDict (Fin 2) := Finmap.insert 0 true ∅

/-- The dead marking `Marking({p1: 0})` of the failing net. -/
def mC1f : PyDict (Fin 2) := Finmap.insert 0 false ∅

/-- Claim C1, evaluated at the failing input: BFS reaches both `{p1:1}` and
`{p1:0}`, but the marking set extracted from the computed symbolic reachable
BDD is exactly `{{p1:0}}` — the initial marking is lost because the BDD is
constant true and `pick_iter` enumerates over its (empty) support. -/
theorem c1_extraction_misses_marking :
    ReachBFS netC1 mC1 mC1 ∧ ReachBFS netC1 mC1 mC1f ∧
    extract_markings netC1 (compute_symbolic_reachability netC1 mC1) = {mC1f} ∧
    mC1 ∉ extract_markings netC1 (compute_symbolic_reachability netC1 mC1) := by
  refine ⟨.init, ?_, by decide, by decide⟩
  have h : fireDict netC1 1 mC1 = mC1f := by decide
  have := @ReachBFS.step (Fin 2) _ netC1 mC1 mC1 1 ReachBFS.init (by decide) (by decide)
  rw [h] at this
  exact this

/-! ### Claim C10 : `BDDReachability.is_reachable` before `compute_symbolic_reachability`

`is_reachable(marking)` with `reachable_bdd` still `None` does
`getattr(self.petri_net, "initial_marking", None)`; when that is `None` it
returns `False`, otherwise it runs `compute_symbolic_reachability` on it
(which initializes the BDD manager when needed) and then answers
`encode_marking(marking) & reachable_bdd != false`.  Inputs: `initOpt` is the
`initial_marking` attribute (`none` when the net object lacks it), `mgrB`
whether the manager is initialized, `rOpt` the current `reachable_bdd`.
`encode_marking` raises `RuntimeError` when called with no manager, which can
only happen in the `rOpt = some` branch. -/

def is_reachable (N : PetriNet K) (initOpt : Option (PyDict K)) (mgrB : Bool)
    (rOpt : Option (Finset (St N))) (m : PyDict K) : Except String Bool :=
  match rOpt with
  | some R =>
      if mgrB then .ok (decide (({encSt N m} : Finset (St N)) ∩ R ≠ ∅))
      else .error "Call initialize_bdd before encoding markings."
  | none =>
      match initOpt with
      | none => .ok false
      | some m₀ =>
          .ok (decide (({encSt N m} : Finset (St N)) ∩ compute_symbolic_reachability N m₀ ≠ ∅))

/-- The unreachable marking `Marking({p1:1, p2:1})` of the chain witness net. -/
def mBoth : PyDict (Fin 3) := Finmap.insert 0 true (Finmap.insert 1 true ∅)

/-- Claim C10, counterexample to the final clause: on the chain net the
pre-compute `is_reachable({p1:1, p2:1})` returns `False` although the net
does have an `initial_marking` attribute — `False` answers also arise from
plain non-membership after computing `R`. -/
theorem c10_counterexample :
    is_reachable netW (some m0W) false none mBoth = .ok false ∧
      some m0W ≠ (none : Option (PyDict (Fin 3))) :=
  ⟨by rfl, by simp⟩

/-- Claim C10 (corrected): calling `is_reachable(M)` before the reachable set
has been computed never raises an engine-not-computed error; when the net has
an `initial_marking` attribute it computes the reachable set from it
(initializing the manager if needed) and answers membership of `M`; it
returns `False` without computing anything only when the net object has no
`initial_marking` attribute (but membership answers may of course also be
`False`). -/
theorem c10_is_reachable (N : PetriNet K) (initOpt : Option (PyDict K)) (mgrB : Bool)
    (m : PyDict K) :
    (∀ e, is_reachable N initOpt mgrB none m ≠ .error e) ∧
    (initOpt = none → is_reachable N initOpt mgrB none m = .ok false) ∧
    (∀ m₀, initOpt = some m₀ →
      is_reachable N initOpt mgrB none m =
        .ok (decide (({encSt N m} : Finset (St N)) ∩ compute_symbolic_reachability N m₀ ≠ ∅))) := by
  refine ⟨?_, ?_, ?_⟩
  · intro e
    cases initOpt with
    | none => simp [is_reachable]
    | some m₀ => simp [is_reachable]
  · rintro rfl
    simp [is_reachable]
  · rintro m₀ rfl
    simp [is_reachable]

/-- Witness for C10 (corrected) at the chain net with the attribute present. -/
theorem c10_is_reachable_witness :
    (∀ e, is_reachable netW (some m0W) true none m1W ≠ .error e) ∧
    ((some m0W : Option (PyDict (Fin 3))) = none →
      is_reachable netW (some m0W) true none m1W = .ok false) ∧
    (∀ m₀, (some m0W : Option (PyDict (Fin 3))) = some m₀ →
      is_reachable netW (some m0W) true none m1W =
        .ok (decide (({encSt netW m1W} : Finset (St netW)) ∩
          compute_symbolic_reachability netW m₀ ≠ ∅))) := by
  have h := c10_is_reachable netW (some m0W) true m1W
  exact ⟨fun e => (h.1 e), h.2.1, h.2.2⟩

/-! ### Deadlock detector : `ilp_deadlock/deadlock_detector.py`

`detect_deadlock` first returns `None` when some transition has an empty
preset.  Otherwise it builds an ILP over binary place variables `x_p` and
integer firing counts with the state equation, the dead constraints
`sum of x_p over preset(t) <= |preset(t)| - 1` for every transition, and the
accumulated no-good cuts, then loops: solve; on a non-optimal status return
`None`; otherwise extract the candidate `x`, accept it iff `_is_reachable`
holds, else add the canonical cut for `x` and repeat.  The external solver is
embedded as an oracle from the list of cuts added so far to an optional
candidate; the solver contract (claim hypothesis) is that any returned
candidate satisfies the dead constraints of the problem.  The loop gets an
explicit fuel; the claim is about runs that return a marking, so the fuel
only truncates runs that would return nothing. -/

def lookup_foldl_insert_by (l : List K) (f : K → Bool) (m : PyDict K) (p : K) :
    ((l.foldl (fun d q => d.insert q (f q)) m).lookup p) =
      (if p ∈ l then some (f p) else m.lookup p) := by
  induction l generalizing m with
  | nil => simp
  | cons q l ih =>
      simp only [List.foldl_cons, ih (m.insert q (f q)), List.mem_cons]
      by_cases hql : p ∈ l
      · simp [hql]
      · by_cases hpq : p = q
        · subst hpq; simp [hql]
        · simp [hql, hpq, Finmap.lookup_insert_of_ne _ hpq]

/-- `_is_reachable(marking)`: substitute the candidate values for all current
place variables in the reachable BDD with `manager.let` and compare the
result with `manager.true`.  The substituted BDD is the constant function
with the value of `R` at the candidate state. -/
def detIsReachable (N : PetriNet K) (R : Finset (St N)) (x : K → Bool) : Prop :=
  Finset.univ.filter (fun _s : St N => (fun p : Pl N => x p.1) ∈ R) = Finset.univ

instance (N : PetriNet K) (R : Finset (St N)) (x : K → Bool) :
    Decidable (detIsReachable N R x) :=
  inferInstanceAs (Decidable (_ = _))

theorem detIsReachable_iff (N : PetriNet K) (R : Finset (St N)) (x : K → Bool) :
    detIsReachable N R x ↔ (fun p : Pl N => x p.1) ∈ R := by
  constructor
  · intro h
    have := h ▸ Finset.mem_univ (fun p : Pl N => x p.1)
    exact (Finset.mem_filter.mp this).2
  · intro h
    exact Finset.filter_true_of_mem (fun s _ => h)

/-- The `Marking(candidate_marking)` built from an ILP solution:
`{p: int(x[p].varValue) for p in net.places}` (iteration order of the place
set does not affect the resulting dict). -/
def candDict [LinearOrder K] (N : PetriNet K) (x : K → Bool) : PyDict K :=
  (placesSorted N).foldl (fun d p => d.insert p (x p)) ∅

theorem mem_placesSorted [LinearOrder K] (N : PetriNet K) (p : K) :
    p ∈ placesSorted N ↔ p ∈ N.places :=
  mem_sortFinset _ _

theorem lookup_candDict [LinearOrder K] (N : PetriNet K) (x : K → Bool) (p : K) :
    (candDict N x).lookup p = (if p ∈ N.places then some (x p) else none) := by
  rw [candDict, lookup_foldl_insert_by]
  by_cases hp : p ∈ N.places
  · rw [if_pos ((mem_placesSorted N p).mpr hp), if_pos hp]
  · rw [if_neg (fun hc => hp ((mem_placesSorted N p).mp hc)), if_neg hp, Finmap.lookup_empty]

/-- The dead constraints of the ILP, restricted to the binary marking
variables: for every transition with a non-empty preset, the tokens in the
preset sum to at most the preset size minus one. -/
def deadConstraints (N : PetriNet K) (x : K → Bool) : Prop :=
  ∀ t ∈ N.transitions, N.arcsIn t ≠ [] →
    ((N.arcsIn t).map (fun p => if x p then (1 : Int) else 0)).sum ≤ (N.arcsIn t).length - 1

instance (N : PetriNet K) (x : K → Bool) : Decidable (deadConstraints N x) :=
  inferInstanceAs (Decidable (∀ t ∈ N.transitions, _ ≠ [] → _ ≤ _))

/-- The iterative cutting loop of `detect_deadlock`: solve, give up on a
non-optimal status, accept a reachable candidate, otherwise cut it and
iterate. -/
def cuttingLoop (N : PetriNet K) (R : Finset (St N))
    (oracle : List (K → Bool) → Option (K → Bool)) :
    Nat → List (K → Bool) → Option (K → Bool)
  | 0, _ => none
  | fuel + 1, cuts =>
      match oracle cuts with
      | none => none
      | some x =>
          if detIsReachable N R x then some x else cuttingLoop N R oracle fuel (x :: cuts)

/-- `DeadlockDetector.detect_deadlock()`: short-circuit on a source
transition (empty preset), else run the cutting loop. -/
def detect_deadlock (N : PetriNet K) (R : Finset (St N))
    (oracle : List (K → Bool) → Option (K → Bool)) (fuel : Nat) : Option (K → Bool) :=
  if ∃ t ∈ N.transitions, N.arcsIn t = [] then none
  else cuttingLoop N R oracle fuel []

theorem cuttingLoop_some (N : PetriNet K) (R : Finset (St N))
    (oracle : List (K → Bool) → Option (K → Bool)) :
    ∀ (fuel : Nat) (cuts : List (K → Bool)) (x : K → Bool),
      cuttingLoop N R oracle fuel cuts = some x →
      (∃ cuts₂, oracle cuts₂ = some x) ∧ detIsReachable N R x := by
  intro fuel
  induction fuel with
  | zero => intro cuts x h; exact absurd h (by simp [cuttingLoop])
  | succ fuel ih =>
      intro cuts x h
      rw [cuttingLoop] at h
      rcases horc : oracle cuts with _ | y
      · rw [horc] at h; exact absurd h (by simp)
      · rw [horc] at h
        have h₂ : (if detIsReachable N R y then some y
            else cuttingLoop N R oracle fuel (y :: cuts)) = some x := h
        by_cases hr : detIsReachable N R y
        · rw [if_pos hr] at h₂
          have hxy : y = x := by injection h₂
          subst hxy
          exact ⟨⟨cuts, horc⟩, hr⟩
        · rw [if_neg hr] at h₂
          exact ih (y :: cuts) x h₂

theorem list_sum_ones {l : List K} {x : K → Bool} (h : ∀ p ∈ l, x p = true) :
    (l.map (fun p => if x p then (1 : Int) else 0)).sum = l.length := by
  induction l with
  | nil => simp
  | cons a l ih =>
      simp only [List.map_cons, List.sum_cons, List.length_cons,
        h a (List.mem_cons_self a l), if_pos]
      rw [ih (fun p hp => h p (List.mem_cons_of_mem a hp))]
      push_cast
      ring

theorem exists_unmarked {l : List K} {x : K → Bool} (hl : l ≠ [])
    (h : (l.map (fun p => if x p then (1 : Int) else 0)).sum ≤ (l.length : Int) - 1) :
    ∃ p ∈ l, x p = false := by
  by_contra hc
  push_neg at hc
  have hall : ∀ p ∈ l, x p = true := by
    intro p hp
    rcases hv : x p with _ | _
    · exact absurd hv (hc p hp)
    · rfl
  rw [list_sum_ones hall] at h
  have : 1 ≤ l.length := by
    cases l with
    | nil => exact absurd rfl hl
    | cons a l => simp
  omega

/-- Claim C3: whenever `detect_deadlock` returns a marking, (a) that marking
satisfies the reachable BDD passed to the detector and (b) no transition of
the net is enabled at it.  Hypotheses: arcs connect places (`Wf`), and the
external ILP solver only returns assignments satisfying the dead constraints
of its problem. -/
theorem c3_detector_sound [LinearOrder K] (N : PetriNet K) (R : Finset (St N))
    (oracle : List (K → Bool) → Option (K → Bool)) (fuel : Nat)
    (hwf : Wf N)
    (horacle : ∀ cuts x, oracle cuts = some x → deadConstraints N x)
    (x : K → Bool)
    (hdet : detect_deadlock N R oracle fuel = some x) :
    (fun p : Pl N => x p.1) ∈ R ∧
    ∀ t ∈ N.transitions, is_enabled N t (candDict N x) = .ok false := by
  rw [detect_deadlock] at hdet
  by_cases hsrc : ∃ t ∈ N.transitions, N.arcsIn t = []
  · rw [if_pos hsrc] at hdet; exact absurd hdet (by simp)
  · rw [if_neg hsrc] at hdet
    obtain ⟨⟨cuts, horc⟩, hreach⟩ := cuttingLoop_some N R oracle fuel [] x hdet
    refine ⟨(detIsReachable_iff N R x).mp hreach, ?_⟩
    intro t ht
    have hne : N.arcsIn t ≠ [] := by
      intro hnil
      exact hsrc ⟨t, ht, hnil⟩
    have hdead := horacle cuts x horc t ht hne
    obtain ⟨p, hp, hpx⟩ := exists_unmarked hne hdead
    rw [is_enabled, if_pos ht]
    have hfalse : (N.arcsIn t).all (has_token (candDict N x)) = false := by
      rw [List.all_eq_false]
      refine ⟨p, hp, ?_⟩
      rw [has_token, lookup_candDict, if_pos ((hwf t ht).1 p hp), Option.getD_some, hpx]
      simp
    rw [hfalse]

/-- The deadlock candidate `{p1:0, p2:1}` for the chain witness net, as the
assignment the ILP solver returns. -/
def xW : Fin 3 → Bool := fun k => decide (k = 1)

/-- Witness for C3 at the chain net: a constant solver oracle proposing the
dead marking `{p1:0, p2:1}`, which the detector accepts. -/
theorem c3_detector_sound_witness :
    (fun p : Pl netW => xW p.1) ∈ compute_symbolic_reachability netW m0W ∧
    ∀ t ∈ netW.transitions, is_enabled netW t (candDict netW xW) = .ok false :=
  c3_detector_sound netW (compute_symbolic_reachability netW m0W)
    (fun _ => some xW) 1 (by decide)
    (by intro cuts x h; injection h with h₂; rw [← h₂]; decide)
    xW (by decide)

/-! ### Optimizer : `optimization/optimizer.py`

`MarkingOptimizer.find_max_score_marking(task3_solver, place_weights, mode)`
reads `bdd_manager` and `reachable_bdd` off the reachability engine.  The
whole body runs in a `try` block whose `except Exception` returns
`(None, None, run_time)`; the only operation in the embedded paths that can
raise is `bdd.var(p)` for an undeclared variable (engine built for a
different net), embedded as `varE`.  `time.time()` readings are passed in as
rational parameters (each return point re-reads the clock; the embedding
uses one end reading).  `pick_iter` yields assignments over the support of
the BDD (enumeration order of `dd` is implementation defined; the embedding
enumerates states in a fixed order), and the extraction of one assignment
defaults missing variables to `False`, which is the support projection
`pickProj`.  The optimizer net `Nopt` and the engine net `E` coincide in
normal use but are separate inputs (the code reads `self.net.places` and the
engine BDDs independently). -/

abbrev PyDictInt (K : Type) := Finmap (fun _ : K => Int)

/-- `place_weights.get(p, 0)` and equally the normalized
`weights = (p: int(place_weights.get(p, 0)))` read at a place. -/
def wOf (pw : PyDictInt K) (p : K) : Int :=
  (pw.lookup p).getD 0

/-- `bdd.var(p)`: the BDD of the current variable of `p`, raising when `p`
is not declared in the manager. -/
def varE (E : PetriNet K) (p : K) : Except Unit (Finset (St E)) :=
  if h : p ∈ E.places then .ok (Finset.univ.filter (fun s => s ⟨p, h⟩ = true))
  else .error ()

/-- All boolean functions over the keys of a list (default `false` off the
list); the enumeration backing the embedding of `pick_iter`. -/
def allFuns {α : Type} [DecidableEq α] : List α → List (α → Bool)
  | [] => [fun _ => false]
  | a :: l =>
      (allFuns l).flatMap (fun f => [Function.update f a false, Function.update f a true])

/-- The places of the net as subtype elements, in sorted order. -/
def placesAttached (E : PetriNet K) [LinearOrder K] : List (Pl E) :=
  (placesSorted E).pmap (fun p hp => (⟨p, hp⟩ : Pl E))
    (fun p hp => (mem_placesSorted E p).mp hp)

/-- Every state of the net, enumerated. -/
def allStates (E : PetriNet K) [LinearOrder K] : List (St E) :=
  allFuns (placesAttached E)

/-- `next(bdd.pick_iter(u))`: the first satisfying assignment, as the
support projection of some satisfying state; `none` when `u` is `false`
(`StopIteration`). -/
def pickSt (E : PetriNet K) [LinearOrder K] (R : Finset (St E)) : Option (St E) :=
  ((allStates E).find? (fun s => decide (s ∈ R))).map (pickProj E R)

/-- `sorted(l, key=...)` with the name tie-break, as a stable insertion
sort by the lexicographic order on `(key, name)`. -/
def sortByKey [LinearOrder K] (key : K → Int) (l : List K) : List K :=
  List.insertionSort (fun a b => key a < key b ∨ (key a = key b ∧ a ≤ b)) l

/-- `suffix_pos`: the sum of the clamped-positive weights of the remaining
places. -/
def suffixPos (w : K → Int) (l : List K) : Int :=
  (l.map (fun p => max (w p) 0)).sum

/-- The branch-and-bound DFS `dfs(idx, node, assignment, cur_score)` with the
`nonlocal` pair `(best_score, best_mark)` threaded through.  At a leaf the
entry pruning test `optimistic <= best_score` (with empty suffix) and the
`cur_score > best_score` update combine into the single comparison shown.
Branch `p = 1` is explored before `p = 0`; empty children are skipped. -/
def dfsBB (E : PetriNet K) (w : K → Int) :
    List K → Finset (St E) → (K → Bool) → Int → (WithBot Int × Option (K → Bool)) →
      Except Unit (WithBot Int × Option (K → Bool))
  | [], _node, assign, cur, best =>
      .ok (if ((cur : Int) : WithBot Int) ≤ best.1 then best
           else (((cur : Int) : WithBot Int), some assign))
  | p :: rest, node, assign, cur, best =>
      if (((cur + suffixPos w (p :: rest) : Int)) : WithBot Int) ≤ best.1 then .ok best
      else
        match varE E p with
        | .error e => .error e
        | .ok v =>
            match (if node ∩ v ≠ ∅ then
                dfsBB E w rest (node ∩ v) (Function.update assign p true) (cur + w p) best
              else .ok best) with
            | .error e => .error e
            | .ok best₁ =>
                if node ∩ (Finset.univ \ v) ≠ ∅ then
                  dfsBB E w rest (node ∩ (Finset.univ \ v)) (Function.update assign p false)
                    cur best₁
                else .ok best₁

/-- The final `marking = (p: int(best_mark.get(p, 0)) for p in places)` (and
equally the fast-path and greedy marking dicts): a dict keyed by the places
of the optimizer net. -/
def dictOfAssign (Nopt : PetriNet K) [LinearOrder K] (f : K → Bool) : PyDict K :=
  (placesSorted Nopt).foldl (fun d p => d.insert p (f p)) ∅

/-- The score `sum(place_weights.get(p, 0) for marked p)` of a marking given
by its value function over the places of the optimizer net. -/
def scoreList (Nopt : PetriNet K) [LinearOrder K] (pw : PyDictInt K) (f : K → Bool) : Int :=
  ((placesSorted Nopt).map (fun p => if f p then wOf pw p else 0)).sum

/-- `test_bdd = current; for q in chosen: test_bdd &= bdd.var(q)` (the early
break on an empty intermediate only skips further intersections with an
empty set, so the fold is result- and error-equivalent: every chosen place
already had `bdd.var` succeed when it was committed). -/
def interChosen (E : PetriNet K) : Finset (St E) → List K → Except Unit (Finset (St E))
  | node, [] => .ok node
  | node, q :: qs =>
      match varE E q with
      | .error e => .error e
      | .ok v => interChosen E (node ∩ v) qs

/-- The committing scan of the greedy mode: skip non-positive weights,
re-intersect the chosen positives, test the candidate place, and commit it
when the intersection stays non-empty. -/
def greedyScan (E : PetriNet K) (w : K → Int) :
    List K → List K → Finset (St E) → Except Unit (List K × Finset (St E))
  | [], chosen, current => .ok (chosen, current)
  | p :: rest, chosen, current =>
      if w p ≤ 0 then greedyScan E w rest chosen current
      else
        match interChosen E current chosen with
        | .error e => .error e
        | .ok test =>
            if test = ∅ then greedyScan E w rest chosen current
            else
              match varE E p with
              | .error e => .error e
              | .ok v =>
                  if test ∩ v ≠ ∅ then greedyScan E w rest (chosen ++ [p]) (test ∩ v)
                  else greedyScan E w rest chosen current

/-- The `mode == 'greedy'` branch. -/
def greedyBranch (E Nopt : PetriNet K) [LinearOrder K] (R : Finset (St E))
    (pw : PyDictInt K) : Except Unit (Option (PyDict K) × Option Int) :=
  match greedyScan E (wOf pw) (sortByKey (fun p => -(wOf pw p)) (placesSorted Nopt)) [] R with
  | .error e => .error e
  | .ok (chosen, _current) =>
      match interChosen E R chosen with
      | .error e => .error e
      | .ok finalN =>
          match pickSt E (if finalN = ∅ then R else finalN) with
          | none => .ok (none, none)
          | some g =>
              .ok (some (dictOfAssign Nopt (fun k => sExt E g k)),
                some (scoreList Nopt pw (fun k => sExt E g k)))

/-- The default exact branch: order the places by descending clamped
positive weight (ties by name), seed `(best_score, best_mark)` from one
picked assignment of `R` (or `(-inf, None)` on `StopIteration`), run the
DFS, and read the result off the final best pair. -/
def exactBranch (E Nopt : PetriNet K) [LinearOrder K] (R : Finset (St E))
    (pw : PyDictInt K) : Except Unit (Option (PyDict K) × Option Int) :=
  match dfsBB E (wOf pw) (sortByKey (fun p => -(max (wOf pw p) 0)) (placesSorted Nopt)) R
      (fun _ => false) 0
      (match pickSt E R with
       | some g => (((scoreList Nopt pw (fun k => sExt E g k) : Int) : WithBot Int),
           some (fun k => sExt E g k))
       | none => ((⊥ : WithBot Int), (none : Option (K → Bool)))) with
  | .error e => .error e
  | .ok (bs, bm) =>
      match bm with
      | none => .ok (none, none)
      | some a => .ok (some (dictOfAssign Nopt a), some (bs.unbot' 0))

/-- The `try` block of `find_max_score_marking`: the early missing-input and
empty-`R` returns, the empty-weights fast path, then the greedy or exact
mode. -/
def optBody (E Nopt : PetriNet K) [LinearOrder K] (mgr : Bool)
    (reach : Option (Finset (St E))) (pw : PyDictInt K) (greedy : Bool) :
    Except Unit (Option (PyDict K) × Option Int) :=
  if mgr = false then .ok (none, none)
  else
    match reach with
    | none => .ok (none, none)
    | some R =>
        if R = ∅ then .ok (none, none)
        else if pw = ∅ then
          match pickSt E R with
          | none => .ok (none, none)
          | some g => .ok (some (dictOfAssign Nopt (fun k => sExt E g k)), some 0)
        else if greedy then greedyBranch E Nopt R pw
        else exactBranch E Nopt R pw

/-- `find_max_score_marking` itself: run the body, catch any raised
exception, and return the triple with the measured run time; a run ending
with no marking returns `(None, None, run_time)`. -/
def find_max_score_marking (E Nopt : PetriNet K) [LinearOrder K] (mgr : Bool)
    (reach : Option (Finset (St E))) (pw : PyDictInt K) (greedy : Bool)
    (tStart tEnd : ℚ) : Option (PyDict K) × Option Int × ℚ :=
  match optBody E Nopt mgr reach pw greedy with
  | .error _ => (none, none, tEnd - tStart)
  | .ok (m, v) =>
      match m with
      | none => (none, none, tEnd - tStart)
      | some mm => (some mm, v, tEnd - tStart)

/-- Claim C9: `find_max_score_marking` never propagates an exception: it
always returns a triple whose third component is the elapsed run time
(non-negative under a monotone clock), and it returns `(None, None, t)`
whenever the manager or the reachable set is missing, the reachable set is
the false BDD, or the body raises internally (the `except Exception`
handler). -/
theorem c9_optimizer_no_raise [LinearOrder K] (E Nopt : PetriNet K) (mgr : Bool)
    (reach : Option (Finset (St E))) (pw : PyDictInt K) (greedy : Bool)
    (tS tE : ℚ) (hclock : tS ≤ tE) :
    ((find_max_score_marking E Nopt mgr reach pw greedy tS tE).2.2 = tE - tS ∧
      0 ≤ (find_max_score_marking E Nopt mgr reach pw greedy tS tE).2.2) ∧
    (mgr = false →
      find_max_score_marking E Nopt mgr reach pw greedy tS tE = (none, none, tE - tS)) ∧
    (reach = none →
      find_max_score_marking E Nopt mgr reach pw greedy tS tE = (none, none, tE - tS)) ∧
    (reach = some (∅ : Finset (St E)) →
      find_max_score_marking E Nopt mgr reach pw greedy tS tE = (none, none, tE - tS)) ∧
    (∀ e, optBody E Nopt mgr reach pw greedy = .error e →
      find_max_score_marking E Nopt mgr reach pw greedy tS tE = (none, none, tE - tS)) := by
  have htime : (find_max_score_marking E Nopt mgr reach pw greedy tS tE).2.2 = tE - tS := by
    rw [find_max_score_marking]
    rcases optBody E Nopt mgr reach pw greedy with e | ⟨m, v⟩
    · rfl
    · cases m <;> rfl
  refine ⟨⟨htime, ?_⟩, ?_, ?_, ?_, ?_⟩
  · rw [htime]
    exact sub_nonneg.mpr hclock
  · rintro rfl
    simp [find_max_score_marking, optBody]
  · rintro rfl
    rcases mgr with _ | _ <;> simp [find_max_score_marking, optBody]
  · rintro rfl
    rcases mgr with _ | _ <;> simp [find_max_score_marking, optBody]
  · intro e he
    rw [find_max_score_marking, he]

/-- Witness for C9 with a missing manager and missing reachable set on the
chain net, clock readings 0 and 1. -/
theorem c9_optimizer_no_raise_witness :
    ((find_max_score_marking netW netW false none ∅ false 0 1).2.2 = 1 - 0 ∧
      0 ≤ (find_max_score_marking netW netW false none ∅ false 0 1).2.2) ∧
    (false = false →
      find_max_score_marking netW netW false none ∅ false 0 1 = (none, none, 1 - 0)) ∧
    ((none : Option (Finset (St netW))) = none →
      find_max_score_marking netW netW false none ∅ false 0 1 = (none, none, 1 - 0)) ∧
    ((none : Option (Finset (St netW))) = some (∅ : Finset (St netW)) →
      find_max_score_marking netW netW false none ∅ false 0 1 = (none, none, 1 - 0)) ∧
    (∀ e, optBody netW netW false none ∅ false = .error e →
      find_max_score_marking netW netW false none ∅ false 0 1 = (none, none, 1 - 0)) :=
  c9_optimizer_no_raise netW netW false none ∅ false 0 1 (by norm_num)

/-! Support lemmas for the exact-mode optimality proof (claim C4). -/

theorem sExt_at (E : PetriNet K) (s : St E) (p : Pl E) : sExt E s p.1 = s p := by
  rw [sExt, dif_pos p.2]

/-- `sum(w_p for marked p of the net)` of a state: the objective value of the
corresponding marking. -/
def scoreSt (E : PetriNet K) (w : K → Int) (s : St E) : Int :=
  ∑ p : Pl E, (if s p then w p.1 else 0)

theorem sum_places [LinearOrder K] (E : PetriNet K) (f : K → Int) :
    ((placesSorted E).map f).sum = ∑ p : Pl E, f p.1 := by
  have h1 : (placesSorted E).toFinset = E.places := by
    ext p; rw [List.mem_toFinset, mem_placesSorted]
  have h2 : ((placesSorted E).map f).sum = (placesSorted E).toFinset.sum f :=
    (List.sum_toFinset f (nodup_sortFinset _)).symm
  rw [h2, h1, ← Finset.sum_attach E.places f, ← Finset.univ_eq_attach]

/-- The partial objective contribution of the not-yet-branched places. -/
def wsuml (E : PetriNet K) (w : K → Int) (l : List K) (s : St E) : Int :=
  (l.map (fun p => if sExt E s p then w p else 0)).sum

theorem wsuml_perm (E : PetriNet K) (w : K → Int) {l l₂ : List K} (h : List.Perm l l₂)
    (s : St E) : wsuml E w l s = wsuml E w l₂ s :=
  (h.map _).sum_eq

theorem wsuml_places [LinearOrder K] (E : PetriNet K) (w : K → Int) (s : St E) :
    wsuml E w (placesSorted E) s = scoreSt E w s := by
  rw [wsuml, sum_places E (fun p => if sExt E s p then w p else 0), scoreSt]
  exact Finset.sum_congr rfl (fun p _ => by rw [sExt_at])

theorem scoreList_sExt [LinearOrder K] (E : PetriNet K) (pw : PyDictInt K) (g : St E) :
    scoreList E pw (fun k => sExt E g k) = scoreSt E (wOf pw) g := by
  rw [scoreList, sum_places E (fun p => if sExt E g p then wOf pw p else 0), scoreSt]
  exact Finset.sum_congr rfl (fun p _ => by rw [sExt_at])

theorem wsuml_le_suffixPos (E : PetriNet K) (w : K → Int) (l : List K) (s : St E) :
    wsuml E w l s ≤ suffixPos w l := by
  apply List.sum_le_sum
  intro p _
  by_cases hp : sExt E s p = true
  · rw [if_pos hp]; exact le_max_left _ _
  · rw [if_neg hp]; exact le_max_right _ _

theorem allFuns_complete {α : Type} [DecidableEq α] :
    ∀ (l : List α) (f : α → Bool), (∀ a, a ∉ l → f a = false) → f ∈ allFuns l := by
  intro l
  induction l with
  | nil =>
      intro f h
      have : f = fun _ => false := funext (fun a => h a (List.not_mem_nil a))
      rw [allFuns, this]
      exact List.mem_singleton_self _
  | cons a l ih =>
      intro f h
      have hg : ∀ b, b ∉ l → Function.update f a false b = false := by
        intro b hb
        by_cases hba : b = a
        · subst hba; rw [Function.update_same]
        · rw [Function.update_noteq hba]
          exact h b (fun hc => by rcases List.mem_cons.mp hc with h1 | h2 <;> [exact hba h1; exact hb h2])
      have hmem := ih (Function.update f a false) hg
      have hupd : ∀ b : Bool, f a = b → f = Function.update (Function.update f a false) a b := by
        intro b hb
        funext c
        by_cases hca : c = a
        · subst hca; rw [Function.update_same, hb]
        · rw [Function.update_noteq hca, Function.update_noteq hca]
      rw [allFuns, List.mem_flatMap]
      refine ⟨Function.update f a false, hmem, ?_⟩
      rcases hfa : f a with _ | _
      · exact List.mem_cons.mpr (Or.inl (hupd false hfa))
      · exact List.mem_cons.mpr (Or.inr (List.mem_singleton.mpr (hupd true hfa)))

theorem mem_placesAttached [LinearOrder K] (E : PetriNet K) (p : Pl E) :
    p ∈ placesAttached E := by
  rw [placesAttached, List.mem_pmap]
  exact ⟨p.1, (mem_placesSorted E p.1).mpr p.2, rfl⟩

theorem mem_allStates [LinearOrder K] (E : PetriNet K) (s : St E) : s ∈ allStates E :=
  allFuns_complete _ s (fun a ha => absurd (mem_placesAttached E a) ha)

theorem update_mem_of_not_dependsOn (N : PetriNet K) (R : Finset (St N)) (p : Pl N)
    (h : ¬ dependsOn N R p) (s : St N) (b : Bool) :
    (Function.update s p b ∈ R) ↔ s ∈ R := by
  rw [dependsOn] at h
  push_neg at h
  by_cases hb : b = s p
  · subst hb
    rw [Function.update_eq_self]
  · have hflip : Function.update s p b = flipAt N s p := by
      rw [flipAt]
      rcases hsp : s p with _ | _ <;> rcases hbv : b with _ | _ <;>
        first
          | rfl
          | (exact absurd (by rw [hsp, hbv]) hb)
    rw [hflip]
    exact (h s).symm

theorem mem_of_setFalse (N : PetriNet K) (R : Finset (St N)) :
    ∀ (D : Finset (Pl N)), (∀ p ∈ D, ¬ dependsOn N R p) →
      ∀ s : St N, ((fun p => if p ∈ D then false else s p) ∈ R ↔ s ∈ R) := by
  intro D
  induction D using Finset.induction_on with
  | empty =>
      intro _ s
      have heq : (fun p => if p ∈ (∅ : Finset (Pl N)) then false else s p) = s := by
        funext p
        rw [if_neg (Finset.not_mem_empty p)]
      rw [heq]
  | insert ha ih =>
      rename_i a D
      intro hD s
      have hfun : (fun p => if p ∈ insert a D then false else s p)
          = Function.update (fun p => if p ∈ D then false else s p) a false := by
        funext q
        by_cases hq : q = a
        · subst hq; simp
        · rw [Function.update_noteq hq]
          simp [Finset.mem_insert, hq]
      rw [hfun,
        update_mem_of_not_dependsOn N R a (hD a (Finset.mem_insert_self a D)) _ false,
        ih (fun p hp => hD p (Finset.mem_insert_of_mem hp)) s]

theorem pickProj_mem (N : PetriNet K) (R : Finset (St N)) (s : St N) (hs : s ∈ R) :
    pickProj N R s ∈ R := by
  have hfun : pickProj N R s
      = (fun p => if p ∈ (Finset.univ \ supportR N R) then false else s p) := by
    funext p
    rw [pickProj]
    by_cases hp : p ∈ supportR N R
    · rw [if_pos hp, if_neg (by simp [hp])]
    · rw [if_neg hp, if_pos (by simp [hp])]
  rw [hfun]
  refine (mem_of_setFalse N R _ (fun p hp => ?_) s).mpr hs
  have hns : p ∉ supportR N R := (Finset.mem_sdiff.mp hp).2
  intro hdep
  exact hns (Finset.mem_filter.mpr ⟨Finset.mem_univ p, hdep⟩)

theorem pickSt_mem [LinearOrder K] (E : PetriNet K) (R : Finset (St E)) (g : St E)
    (h : pickSt E R = some g) : g ∈ R := by
  rw [pickSt] at h
  rcases hf : (allStates E).find? (fun s => decide (s ∈ R)) with _ | s
  · rw [hf] at h; exact absurd h (by simp)
  · rw [hf] at h
    have hps := List.find?_some hf
    have hsR : s ∈ R := of_decide_eq_true hps
    have hg : pickProj E R s = g := by
      simpa using h
    rw [← hg]
    exact pickProj_mem E R s hsR

theorem pickSt_isSome [LinearOrder K] (E : PetriNet K) (R : Finset (St E)) (hR : R ≠ ∅) :
    ∃ g, pickSt E R = some g := by
  obtain ⟨s, hs⟩ := Finset.nonempty_iff_ne_empty.mpr hR
  have hex : ∃ x ∈ allStates E, decide (x ∈ R) = true :=
    ⟨s, mem_allStates E s, decide_eq_true hs⟩
  obtain ⟨y, hy⟩ := Option.isSome_iff_exists.mp (List.find?_isSome.mpr hex)
  exact ⟨pickProj E R y, by rw [pickSt, hy]; rfl⟩

theorem encSt_dictOfAssign [LinearOrder K] (E : PetriNet K) (a : K → Bool) :
    encSt E (dictOfAssign E a) = fun p : Pl E => a p.1 := by
  funext p
  show has_token (dictOfAssign E a) p.1 = a p.1
  rw [has_token, dictOfAssign, lookup_foldl_insert_by,
    if_pos ((mem_placesSorted E _).mpr p.2)]
  rfl

/-- The state named by an assignment dict read with default 0:
`p -> assignment.get(p, 0)` restricted to the places of the net. -/
def stOf (E : PetriNet K) (a : K → Bool) : St E :=
  fun p => a p.1

/-- Invariant of the threaded `(best_score, best_mark)` pair: either still
the initial `(-inf, None)`, or the recorded mark denotes a state of `R`
whose score is the recorded best score. -/
def GoodBest (E : PetriNet K) (w : K → Int) (R : Finset (St E))
    (best : WithBot Int × Option (K → Bool)) : Prop :=
  best = ((⊥ : WithBot Int), (none : Option (K → Bool))) ∨
  ∃ a, best.2 = some a ∧ stOf E a ∈ R ∧
    best.1 = ((scoreSt E w (stOf E a) : Int) : WithBot Int)

theorem consStep (E : PetriNet K) (R node : Finset (St E)) (assign : K → Bool)
    (p : K) (hp : p ∈ E.places) (rest : List K) (hpnr : p ∉ rest) (b : Bool)
    (hcons : ∀ s ∈ R, (s ∈ node ↔ ∀ q : Pl E, q.1 ∉ p :: rest → s q = assign q.1)) :
    ∀ s ∈ R, ((s ∈ node ∧ s ⟨p, hp⟩ = b) ↔
      ∀ q : Pl E, q.1 ∉ rest → s q = Function.update assign p b q.1) := by
  intro s hsR
  constructor
  · rintro ⟨hn, hb⟩ q hq
    by_cases hqp : q.1 = p
    · have hqe : q = ⟨p, hp⟩ := Subtype.ext hqp
      rw [hqe, hb, show ((⟨p, hp⟩ : Pl E) : K) = p from rfl, Function.update_same]
    · rw [Function.update_noteq hqp]
      refine (hcons s hsR).mp hn q ?_
      rw [List.mem_cons]
      push_neg
      exact ⟨hqp, hq⟩
  · intro hall
    refine ⟨?_, ?_⟩
    · apply (hcons s hsR).mpr
      intro q hq
      have hq₂ : q.1 ∉ rest := fun hc => hq (List.mem_cons_of_mem _ hc)
      have hqp : q.1 ≠ p := fun hc => hq (by rw [hc]; exact List.mem_cons_self _ _)
      have hv := hall q hq₂
      rw [Function.update_noteq hqp] at hv
      exact hv
    · have hv := hall ⟨p, hp⟩ hpnr
      rw [show ((⟨p, hp⟩ : Pl E) : K) = p from rfl, Function.update_same] at hv
      exact hv

theorem curStep (E : PetriNet K) (w : K → Int) (node : Finset (St E)) (cur : Int)
    (p : K) (hp : p ∈ E.places) (rest : List K)
    (hcur : ∀ s ∈ node, scoreSt E w s = cur + wsuml E w (p :: rest) s) :
    ∀ s ∈ node, ∀ b : Bool, s ⟨p, hp⟩ = b →
      scoreSt E w s = (cur + (if b then w p else 0)) + wsuml E w rest s := by
  intro s hs b hb
  have h₁ := hcur s hs
  have hse : sExt E s p = b := by
    rw [sExt, dif_pos hp]; exact hb
  rw [wsuml, List.map_cons, List.sum_cons, hse] at h₁
  rw [h₁, wsuml]
  ring

theorem node_split {α : Type} [DecidableEq α] [Fintype α] (node v : Finset α) :
    (node ∩ v) ∪ (node ∩ (Finset.univ \ v)) = node := by
  ext s
  by_cases hv : s ∈ v <;>
    simp [Finset.mem_union, Finset.mem_inter, Finset.mem_sdiff, hv]

/-- Specification of the branch-and-bound DFS: with consistent inputs it
raises nothing, returns a best pair whose score is the old best joined with
the maximum score over the current node, and preserves the mark invariant. -/
theorem dfsBB_spec [LinearOrder K] (E : PetriNet K) (w : K → Int) (R : Finset (St E)) :
    ∀ (l : List K) (node : Finset (St E)) (assign : K → Bool) (cur : Int)
      (best : WithBot Int × Option (K → Bool)),
      l.Nodup →
      (∀ p ∈ l, p ∈ E.places) →
      node ≠ ∅ →
      node ⊆ R →
      (∀ s ∈ R, (s ∈ node ↔ ∀ q : Pl E, q.1 ∉ l → s q = assign q.1)) →
      (∀ s ∈ node, scoreSt E w s = cur + wsuml E w l s) →
      GoodBest E w R best →
      ∃ best₂,
        dfsBB E w l node assign cur best = .ok best₂ ∧
        best₂.1 = best.1 ⊔ node.sup (fun s => ((scoreSt E w s : Int) : WithBot Int)) ∧
        GoodBest E w R best₂ := by
  intro l
  induction l with
  | nil =>
      intro node assign cur best _ _ hne hsub hcons hcur hgood
      obtain ⟨s₀, hs₀⟩ := Finset.nonempty_iff_ne_empty.mpr hne
      have heq : ∀ s ∈ node, s = stOf E assign := by
        intro s hs
        funext q
        exact (hcons s (hsub hs)).mp hs q (List.not_mem_nil q.1)
      have hstR : stOf E assign ∈ R := heq s₀ hs₀ ▸ hsub hs₀
      have hstnode : stOf E assign ∈ node := heq s₀ hs₀ ▸ hs₀
      have hnodeeq : node = {stOf E assign} :=
        Finset.eq_singleton_iff_unique_mem.mpr ⟨hstnode, fun x hx => heq x hx⟩
      have hscur : scoreSt E w (stOf E assign) = cur := by
        have h₁ := hcur _ hstnode
        simpa [wsuml] using h₁
      have hsup : node.sup (fun s => ((scoreSt E w s : Int) : WithBot Int))
          = ((cur : Int) : WithBot Int) := by
        rw [hnodeeq, Finset.sup_singleton, hscur]
      rw [dfsBB]
      by_cases hle : ((cur : Int) : WithBot Int) ≤ best.1
      · refine ⟨best, by rw [if_pos hle], ?_, hgood⟩
        rw [hsup, sup_eq_left.mpr hle]
      · refine ⟨(((cur : Int) : WithBot Int), some assign), by rw [if_neg hle], ?_, ?_⟩
        · rw [hsup, sup_eq_right.mpr (le_of_lt (not_le.mp hle))]
        · right
          exact ⟨assign, rfl, hstR, by rw [hscur]⟩
  | cons p rest ih =>
      intro node assign cur best hnodup hmem hne hsub hcons hcur hgood
      have hp : p ∈ E.places := hmem p (List.mem_cons_self p rest)
      have hpnr : p ∉ rest := (List.nodup_cons.mp hnodup).1
      have hnodup₂ : rest.Nodup := (List.nodup_cons.mp hnodup).2
      have hmem₂ : ∀ q ∈ rest, q ∈ E.places := fun q hq => hmem q (List.mem_cons_of_mem _ hq)
      have hbound : ∀ s ∈ node,
          ((scoreSt E w s : Int) : WithBot Int)
            ≤ (((cur + suffixPos w (p :: rest) : Int)) : WithBot Int) := by
        intro s hs
        apply WithBot.coe_le_coe.mpr
        rw [hcur s hs]
        exact add_le_add_left (wsuml_le_suffixPos E w (p :: rest) s) cur
      by_cases hprune : (((cur + suffixPos w (p :: rest) : Int)) : WithBot Int) ≤ best.1
      · refine ⟨best, by rw [dfsBB, if_pos hprune], ?_, hgood⟩
        have hsuple : node.sup (fun s => ((scoreSt E w s : Int) : WithBot Int)) ≤ best.1 :=
          Finset.sup_le (fun s hs => le_trans (hbound s hs) hprune)
        rw [sup_eq_left.mpr hsuple]
      · have hvar : varE E p = .ok (Finset.univ.filter (fun s : St E => s ⟨p, hp⟩ = true)) :=
          dif_pos hp
        have hstep : dfsBB E w (p :: rest) node assign cur best =
            (match (if node ∩ Finset.univ.filter (fun s : St E => s ⟨p, hp⟩ = true) ≠ ∅ then
                dfsBB E w rest (node ∩ Finset.univ.filter (fun s : St E => s ⟨p, hp⟩ = true))
                  (Function.update assign p true) (cur + w p) best
              else .ok best) with
             | .error e => .error e
             | .ok best₁ =>
                 if node ∩ (Finset.univ \ Finset.univ.filter (fun s : St E => s ⟨p, hp⟩ = true)) ≠ ∅ then
                   dfsBB E w rest
                     (node ∩ (Finset.univ \ Finset.univ.filter (fun s : St E => s ⟨p, hp⟩ = true)))
                     (Function.update assign p false) cur best₁
                 else .ok best₁) := by
          rw [dfsBB, if_neg hprune, hvar]
        have hmem₁ : ∀ s, s ∈ node ∩ Finset.univ.filter (fun s : St E => s ⟨p, hp⟩ = true) ↔
            s ∈ node ∧ s ⟨p, hp⟩ = true := by
          intro s
          simp [Finset.mem_inter, Finset.mem_filter]
        have hmem₀ : ∀ s,
            s ∈ node ∩ (Finset.univ \ Finset.univ.filter (fun s : St E => s ⟨p, hp⟩ = true)) ↔
            s ∈ node ∧ s ⟨p, hp⟩ = false := by
          intro s
          simp [Finset.mem_inter, Finset.mem_sdiff, Finset.mem_filter]
        have hsub₁ : node ∩ Finset.univ.filter (fun s : St E => s ⟨p, hp⟩ = true) ⊆ R :=
          fun s hs => hsub ((hmem₁ s).mp hs).1
        have hsub₀ : node ∩ (Finset.univ \ Finset.univ.filter (fun s : St E => s ⟨p, hp⟩ = true)) ⊆ R :=
          fun s hs => hsub ((hmem₀ s).mp hs).1
        have hconsS := consStep E R node assign p hp rest hpnr
        have hcurS := curStep E w node cur p hp rest hcur
        have hbr₁ : ∃ best₁,
            (if node ∩ Finset.univ.filter (fun s : St E => s ⟨p, hp⟩ = true) ≠ ∅ then
              dfsBB E w rest (node ∩ Finset.univ.filter (fun s : St E => s ⟨p, hp⟩ = true))
                (Function.update assign p true) (cur + w p) best
            else .ok best) = .ok best₁ ∧
            best₁.1 = best.1 ⊔
              (node ∩ Finset.univ.filter (fun s : St E => s ⟨p, hp⟩ = true)).sup
                (fun s => ((scoreSt E w s : Int) : WithBot Int)) ∧
            GoodBest E w R best₁ := by
          by_cases h₁ : node ∩ Finset.univ.filter (fun s : St E => s ⟨p, hp⟩ = true) ≠ ∅
          · rw [if_pos h₁]
            refine ih _ _ _ _ hnodup₂ hmem₂ h₁ hsub₁ ?_ ?_ hgood
            · intro s hsR
              rw [hmem₁ s]
              exact hconsS true hcons s hsR
            · intro s hs
              rcases (hmem₁ s).mp hs with ⟨hn, hb⟩
              have h₂ := hcurS s hn true hb
              simpa using h₂
          · rw [if_neg h₁]
            push_neg at h₁
            refine ⟨best, rfl, ?_, hgood⟩
            rw [h₁, Finset.sup_empty]
            exact (sup_bot_eq best.1).symm
        obtain ⟨best₁, hb₁eq, hb₁val, hb₁good⟩ := hbr₁
        have hbr₀ : ∃ best₂,
            (if node ∩ (Finset.univ \ Finset.univ.filter (fun s : St E => s ⟨p, hp⟩ = true)) ≠ ∅ then
              dfsBB E w rest
                (node ∩ (Finset.univ \ Finset.univ.filter (fun s : St E => s ⟨p, hp⟩ = true)))
                (Function.update assign p false) cur best₁
            else .ok best₁) = .ok best₂ ∧
            best₂.1 = best₁.1 ⊔
              (node ∩ (Finset.univ \ Finset.univ.filter (fun s : St E => s ⟨p, hp⟩ = true))).sup
                (fun s => ((scoreSt E w s : Int) : WithBot Int)) ∧
            GoodBest E w R best₂ := by
          by_cases h₀ : node ∩ (Finset.univ \ Finset.univ.filter (fun s : St E => s ⟨p, hp⟩ = true)) ≠ ∅
          · rw [if_pos h₀]
            refine ih _ _ _ _ hnodup₂ hmem₂ h₀ hsub₀ ?_ ?_ hb₁good
            · intro s hsR
              rw [hmem₀ s]
              exact hconsS false hcons s hsR
            · intro s hs
              rcases (hmem₀ s).mp hs with ⟨hn, hb⟩
              have h₂ := hcurS s hn false hb
              simpa using h₂
          · rw [if_neg h₀]
            push_neg at h₀
            refine ⟨best₁, rfl, ?_, hb₁good⟩
            rw [h₀, Finset.sup_empty]
            exact (sup_bot_eq best₁.1).symm
        obtain ⟨best₂, hb₀eq, hb₀val, hb₀good⟩ := hbr₀
        refine ⟨best₂, ?_, ?_, hb₀good⟩
        · rw [hstep, hb₁eq]
          exact hb₀eq
        · rw [hb₀val, hb₁val, sup_assoc,
            ← Finset.sup_union, node_split]

theorem scoreSt_wOf_empty (E : PetriNet K) (s : St E) :
    scoreSt E (wOf (∅ : PyDictInt K)) s = 0 := by
  rw [scoreSt]
  apply Finset.sum_eq_zero
  intro p _
  rcases s p with _ | _ <;> simp [wOf]

/-- Claim C4: on a completed engine with non-empty reachable set `R` (the
optimizer and the engine built over the same net), exact mode returns a
marking of `R` together with its exact weighted score, and that score is the
maximum of the objective over `R`. -/
theorem c4_optimizer_exact [LinearOrder K] (E : PetriNet K) (R : Finset (St E))
    (pw : PyDictInt K) (tS tE : ℚ) (hR : R ≠ ∅) :
    ∃ (m : PyDict K) (v : Int),
      find_max_score_marking E E true (some R) pw false tS tE = (some m, some v, tE - tS) ∧
      encSt E m ∈ R ∧
      v = scoreSt E (wOf pw) (encSt E m) ∧
      ∀ s ∈ R, scoreSt E (wOf pw) s ≤ v := by
  obtain ⟨g, hg⟩ := pickSt_isSome E R hR
  have hgR : g ∈ R := pickSt_mem E R g hg
  have hgst : stOf E (fun k => sExt E g k) = g := funext fun p => sExt_at E g p
  by_cases hpw : pw = (∅ : PyDictInt K)
  · subst hpw
    have hbody : optBody E E true (some R) ∅ false
        = .ok (some (dictOfAssign E (fun k => sExt E g k)), some 0) := by
      rw [optBody, if_neg (by simp : ¬(true = false))]
      show (if R = ∅ then Except.ok (none, none)
        else if (∅ : PyDictInt K) = ∅ then _ else _) = _
      rw [if_neg hR, if_pos rfl, hg]
    have henc : encSt E (dictOfAssign E (fun k => sExt E g k)) = g := by
      rw [encSt_dictOfAssign]
      exact hgst
    refine ⟨dictOfAssign E (fun k => sExt E g k), 0, ?_, ?_, ?_, ?_⟩
    · rw [find_max_score_marking, hbody]
    · rw [henc]; exact hgR
    · rw [henc, scoreSt_wOf_empty]
    · intro s hs
      rw [scoreSt_wOf_empty]
  · have hperm : List.Perm (sortByKey (fun p => -(max (wOf pw p) 0)) (placesSorted E))
        (placesSorted E) := List.perm_insertionSort _ _
    have hnodup : (sortByKey (fun p => -(max (wOf pw p) 0)) (placesSorted E)).Nodup :=
      hperm.nodup_iff.mpr (nodup_sortFinset _)
    have hmemord : ∀ q ∈ sortByKey (fun p => -(max (wOf pw p) 0)) (placesSorted E),
        q ∈ E.places :=
      fun q hq => (mem_placesSorted E q).mp (hperm.mem_iff.mp hq)
    have hgood₀ : GoodBest E (wOf pw) R
        (((scoreList E pw (fun k => sExt E g k) : Int) : WithBot Int),
          some (fun k => sExt E g k)) := by
      right
      refine ⟨fun k => sExt E g k, rfl, ?_, ?_⟩
      · rw [hgst]; exact hgR
      · rw [hgst]
        show ((scoreList E pw (fun k => sExt E g k) : Int) : WithBot Int) = _
        rw [scoreList_sExt]
    have hconsbase : ∀ s ∈ R, (s ∈ R ↔ ∀ q : Pl E,
        q.1 ∉ sortByKey (fun p => -(max (wOf pw p) 0)) (placesSorted E) →
          s q = (fun _ : K => false) q.1) := by
      intro s hsR
      constructor
      · intro _ q hq
        exact absurd (hperm.mem_iff.mpr ((mem_placesSorted E q.1).mpr q.2)) hq
      · intro _
        exact hsR
    have hcurbase : ∀ s ∈ R, scoreSt E (wOf pw) s =
        0 + wsuml E (wOf pw) (sortByKey (fun p => -(max (wOf pw p) 0)) (placesSorted E)) s := by
      intro s _
      rw [wsuml_perm E (wOf pw) hperm s, wsuml_places, zero_add]
    obtain ⟨best₂, hdfs, hval, hgood₂⟩ :=
      dfsBB_spec E (wOf pw) R _ R (fun _ => false) 0 _
        hnodup hmemord hR subset_rfl hconsbase hcurbase hgood₀
    have hle : ∀ x ∈ R, (fun s => ((scoreSt E (wOf pw) s : Int) : WithBot Int)) x
        ≤ R.sup (fun s => ((scoreSt E (wOf pw) s : Int) : WithBot Int)) :=
      fun x hx => @Finset.le_sup (WithBot Int) (St E) _ _ R
        (fun s => ((scoreSt E (wOf pw) s : Int) : WithBot Int)) x hx
    have hsup_le : ((scoreList E pw (fun k => sExt E g k) : Int) : WithBot Int)
        ≤ R.sup (fun s => ((scoreSt E (wOf pw) s : Int) : WithBot Int)) := by
      rw [scoreList_sExt]
      exact hle g hgR
    have hval₂ : best₂.1 = R.sup (fun s => ((scoreSt E (wOf pw) s : Int) : WithBot Int)) := by
      rw [hval, sup_eq_right.mpr hsup_le]
    rcases hgood₂ with hbot | ⟨a, hbm, haR, hbv⟩
    · exfalso
      have h₁ : ((scoreSt E (wOf pw) g : Int) : WithBot Int)
          ≤ R.sup (fun s => ((scoreSt E (wOf pw) s : Int) : WithBot Int)) :=
        hle g hgR
      rw [← hval₂, hbot] at h₁
      exact WithBot.not_coe_le_bot _ h₁
    · obtain ⟨bs, bm⟩ := best₂
      simp only at hbm hbv hval₂
      have hbody : optBody E E true (some R) pw false
          = .ok (some (dictOfAssign E a), some (bs.unbot' 0)) := by
        rw [optBody, if_neg (by simp : ¬(true = false))]
        show (if R = ∅ then Except.ok (none, none)
          else if pw = ∅ then _ else if false = true then _ else exactBranch E E R pw) = _
        rw [if_neg hR, if_neg hpw, if_neg (by simp : ¬(false = true)), exactBranch, hg, hdfs, hbm]
      have henc : encSt E (dictOfAssign E a) = stOf E a := by
        rw [encSt_dictOfAssign]
        rfl
      have hbsv : bs.unbot' 0 = scoreSt E (wOf pw) (stOf E a) := by
        rw [hbv]
        exact WithBot.unbot'_coe 0 _
      refine ⟨dictOfAssign E a, bs.unbot' 0, ?_, ?_, ?_, ?_⟩
      · rw [find_max_score_marking, hbody]
      · rw [henc]; exact haR
      · rw [henc, hbsv]
      · intro s hs
        have h₁ : ((scoreSt E (wOf pw) s : Int) : WithBot Int)
            ≤ R.sup (fun s => ((scoreSt E (wOf pw) s : Int) : WithBot Int)) :=
          hle s hs
        rw [← hval₂, hbv] at h₁
        rw [hbsv]
        exact WithBot.coe_le_coe.mp h₁

/-- Weights `(p1: 1, p2: 10)` for the chain witness net. -/
def pwW : PyDictInt (Fin 3) := Finmap.insert 0 1 (Finmap.insert 1 10 ∅)

/-- Witness for C4: exact-mode optimization over the computed reachable set
of the chain net with weights `(p1: 1, p2: 10)`. -/
theorem c4_optimizer_exact_witness :
    ∃ (m : PyDict (Fin 3)) (v : Int),
      find_max_score_marking netW netW true (some (compute_symbolic_reachability netW m0W))
          pwW false 0 1 = (some m, some v, 1 - 0) ∧
      encSt netW m ∈ compute_symbolic_reachability netW m0W ∧
      v = scoreSt netW (wOf pwW) (encSt netW m) ∧
      ∀ s ∈ compute_symbolic_reachability netW m0W, scoreSt netW (wOf pwW) s ≤ v :=
  c4_optimizer_exact netW (compute_symbolic_reachability netW m0W) pwW 0 1 (by decide)

end PetriProof
